import Mathlib

/-!
Verification of the `Traversal` optic module (src/Traversal.ts) of the
monocle-ts repository.  A `Traversal S A` focuses from a structure `S` into
zero or more targets of type `A`; its sole member `modifyF` applies an
effectful per-target transformation under an arbitrary applicative effect and
rebuilds the structure.  The optic kinds it composes with (Iso, Lens, Prism,
Optional), the internal composition operators and the traversable strategies
are external collaborators of the file under scrutiny; they are modelled from
the specification where noted.
-/

set_option maxHeartbeats 1000000

namespace Monocle

/-- The Traversal data model (src/Traversal.ts, `interface Traversal<S, A>`):
a record holding exactly one member, a function parametric in an applicative
effect `F` that takes an effectful per-target transformation `A → F A` and
returns `S → F S`. -/
structure Traversal (S A : Type) : Type 1 where
  modifyF : {F : Type → Type} → [inst : Applicative F] → (A → F A) → S → F S

/-- Modelled from the spec: the external Traversable strategy consumed by
`fromTraversable` (spec §6) — apply an effectful function to each element of a
container `T A` and reassemble the container, sequencing effects
left-to-right.  The strategy itself (fp-ts `Traversable`) is an external
collaborator, not part of the file under scrutiny. -/
structure TraversableDict (T : Type → Type) : Type 1 where
  traverse : {F : Type → Type} → [inst : Applicative F] → {A B : Type} → (A → F B) → T A → F (T B)

/-- `fromTraversable` (src/Traversal.ts lines 50–57): the Traversal whose
`modifyF` simply runs the strategy's traverse with the supplied applicative
and per-element function. -/
def fromTraversable {T : Type → Type} (TD : TraversableDict T) {A : Type} : Traversal (T A) A :=
  ⟨fun {_F} _ f s => TD.traverse f s⟩

/-- Modelled from the spec: an Iso is a lossless bidirectional view, forward
and reverse total conversions (spec §6). -/
structure Iso (S A : Type) : Type where
  get : S → A
  reverseGet : A → S

/-- Modelled from the spec: a Lens has a total get and a total set — exactly
one target inside each structure (spec §6). -/
structure Lens (S A : Type) : Type where
  get : S → A
  set : A → S → S

/-- Modelled from the spec: a Prism has a partial get (a possible
"does not match" outcome) and a total reverse construction (spec §6). -/
structure Prism (S A : Type) : Type where
  getOption : S → Option A
  reverseGet : A → S

/-- Modelled from the spec: an Optional has a partial get and a partial
update (spec §6). -/
structure Optional (S A : Type) : Type where
  getOption : S → Option A
  set : A → S → S

/-- Modelled from the spec: `composeTraversal` (src/Traversal.ts line 103
delegates to the internal module, absent from src/) — for each outer target
run the inner traversal's own rebuild, sequencing nested effects in the same
pass, outer-major inner-minor (spec §4.2). -/
def composeTraversal {S A B : Type} (ab : Traversal A B) (sa : Traversal S A) : Traversal S B :=
  ⟨fun {_F} _ f => sa.modifyF (ab.modifyF f)⟩

/-- Modelled from the spec: `composeIso` (src/Traversal.ts line 69 delegates
to the internal module) — for each target, convert to `B`, apply the
transformation, convert back, substitute (spec §4.2). -/
def composeIso {S A B : Type} (ab : Iso A B) (sa : Traversal S A) : Traversal S B :=
  ⟨fun {_F} _ f => sa.modifyF (fun a => ab.reverseGet <$> f (ab.get a))⟩

/-- Modelled from the spec: `composeLens` (src/Traversal.ts line 77 delegates
to the internal module) — for each target, extract its single `B`, transform,
re-inject, substitute (spec §4.2). -/
def composeLens {S A B : Type} (ab : Lens A B) (sa : Traversal S A) : Traversal S B :=
  ⟨fun {_F} _ f => sa.modifyF (fun a => (fun b => ab.set b a) <$> f (ab.get a))⟩

/-- Modelled from the spec: `composePrism` (src/Traversal.ts lines 85–86
delegate to the internal module) — for each target, attempt to view `B`; if
absent leave that target untouched, if present transform and re-embed
(spec §4.2). -/
def composePrism {S A B : Type} (ab : Prism A B) (sa : Traversal S A) : Traversal S B :=
  ⟨fun {_F} _ f => sa.modifyF (fun a =>
    match ab.getOption a with
    | Option.none => pure a
    | Option.some b => ab.reverseGet <$> f b)⟩

/-- Modelled from the spec: `composeOptional` (src/Traversal.ts lines 94–95
delegate to the internal module) — identical skip policy to the prism case,
re-embedding through the optional's partial update (spec §4.2). -/
def composeOptional {S A B : Type} (ab : Optional A B) (sa : Traversal S A) : Traversal S B :=
  ⟨fun {_F} _ f => sa.modifyF (fun a =>
    match ab.getOption a with
    | Option.none => pure a
    | Option.some b => (fun b2 => ab.set b2 a) <$> f b)⟩

/-- `modify` (src/Traversal.ts lines 114–116): run the primitive with the
identity applicative and `f` itself as the per-target function. -/
def modify {S A : Type} (f : A → A) (sa : Traversal S A) : S → S :=
  sa.modifyF (F := Id) f

/-- `set` (src/Traversal.ts lines 122–124): `modify` with the constant
function that ignores its input and returns `a`. -/
def set {S A : Type} (a : A) (sa : Traversal S A) : S → S :=
  modify (fun _ => a) sa

/-- Modelled from the spec: the prism the internal module builds from a
predicate for `filter` — the view succeeds only if the predicate holds and
re-embedding is the identity (spec §4.3). -/
def prismFromPredicate {A : Type} (p : A → Bool) : Prism A A :=
  ⟨fun a => if p a then Option.some a else Option.none, fun a => a⟩

/-- `filter` (src/Traversal.ts lines 130–134): compose with the prism built
from the predicate. -/
def filter {S A : Type} (p : A → Bool) (sa : Traversal S A) : Traversal S A :=
  composePrism (prismFromPredicate p) sa

/-- A representative record target type with the named field `x` and one
further field `y`, standing for the record types `prop("x")` acts on. -/
structure Rec (α β : Type) : Type where
  x : α
  y : β

/-- Modelled from the spec: the lens `prop("x")` composes with — it extracts
and re-injects the single named field `x` of each target (spec §4.3; the
lens construction lives in the internal module, absent from src/). -/
def lensX {α β : Type} : Lens (Rec α β) α :=
  ⟨Rec.x, fun v r => Rec.mk v r.y⟩

/-- `prop` (src/Traversal.ts lines 142–143) at the representative record
type and field `x`: compose with the field lens. -/
def propX {S α β : Type} (sa : Traversal S (Rec α β)) : Traversal S α :=
  composeLens lensX sa

/-- Modelled from the spec: the prism from an `Option`-valued target used by
`some` — the view is the option itself and re-embedding wraps in `Some`
(spec §4.3; the prism lives in the internal module, absent from src/). -/
def prismFromSome {A : Type} : Prism (Option A) A :=
  ⟨fun oa => oa, Option.some⟩

/-- `some` (src/Traversal.ts line 162): compose with the prism that focuses
on the present value of an `Option`-valued target. -/
def some {S A : Type} (soa : Traversal S (Option A)) : Traversal S A :=
  composePrism prismFromSome soa

/-- Modelled from the spec: the left-to-right effectful traversal of a list,
the sequence-container strategy of the concrete scenarios (an external
collaborator, fp-ts array Traversable). -/
def listTraverse {F : Type → Type} [Applicative F] {A B : Type} (f : A → F B) : List A → F (List B)
  | [] => pure []
  | a :: as => List.cons <$> f a <*> listTraverse f as

/-- The list strategy packaged as a `TraversableDict`. -/
def listDict : TraversableDict List :=
  ⟨fun f s => listTraverse f s⟩

/-- The traversal over all elements of a list, as built by
`fromTraversable`. -/
def listT {A : Type} : Traversal (List A) A :=
  fromTraversable listDict

/-- A concrete prism on a sum type, matching only the left component; used
in the silent-skip scenario. -/
def sumPrism : Prism (Nat ⊕ Bool) Nat :=
  ⟨fun s => match s with
    | Sum.inl n => Option.some n
    | Sum.inr _ => Option.none,
   Sum.inl⟩

/-- The traversals the library constructs from law-abiding external
collaborators: built by `fromTraversable` from a strategy satisfying the
identity and fusion laws at the identity effect (spec §4.1 assumes the
strategy's laws), and closed under the five composition operators applied to
optics satisfying their contracts of spec §6. -/
inductive Lawful : {S A : Type} → Traversal S A → Prop
  | fromTrav {T : Type → Type} (TD : TraversableDict T) {A : Type}
      (hid : ∀ s : T A, TD.traverse (F := Id) (fun a => a) s = s)
      (hfuse : ∀ (f g : A → A) (s : T A),
        TD.traverse (F := Id) g (TD.traverse (F := Id) f s) =
          TD.traverse (F := Id) (fun a => g (f a)) s) :
      Lawful (fromTraversable TD (A := A))
  | iso {S A B : Type} (ab : Iso A B) (sa : Traversal S A)
      (hra : ∀ a, ab.reverseGet (ab.get a) = a)
      (har : ∀ b, ab.get (ab.reverseGet b) = b)
      (hsa : Lawful sa) : Lawful (composeIso ab sa)
  | lens {S A B : Type} (ab : Lens A B) (sa : Traversal S A)
      (hgs : ∀ a, ab.set (ab.get a) a = a)
      (hsg : ∀ b a, ab.get (ab.set b a) = b)
      (hss : ∀ b b2 a, ab.set b2 (ab.set b a) = ab.set b2 a)
      (hsa : Lawful sa) : Lawful (composeLens ab sa)
  | prism {S A B : Type} (ab : Prism A B) (sa : Traversal S A)
      (hmatch : ∀ a b, ab.getOption a = Option.some b → ab.reverseGet b = a)
      (hrg : ∀ b, ab.getOption (ab.reverseGet b) = Option.some b)
      (hsa : Lawful sa) : Lawful (composePrism ab sa)
  | opt {S A B : Type} (ab : Optional A B) (sa : Traversal S A)
      (hgs : ∀ a b, ab.getOption a = Option.some b → ab.set b a = a)
      (hsg : ∀ a b, ab.getOption a = Option.some b →
        ∀ b2, ab.getOption (ab.set b2 a) = Option.some b2)
      (hss : ∀ a b, ab.getOption a = Option.some b →
        ∀ b2 b3, ab.set b3 (ab.set b2 a) = ab.set b3 a)
      (hsa : Lawful sa) : Lawful (composeOptional ab sa)
  | trav {S A B : Type} (ab : Traversal A B) (sa : Traversal S A)
      (hab : Lawful ab) (hsa : Lawful sa) : Lawful (composeTraversal ab sa)

/-- Running `modify` through a composed iso acts on each target of the outer
traversal by converting, transforming and converting back. -/
theorem modify_composeIso {S A B : Type} (ab : Iso A B) (sa : Traversal S A)
    (f : B → B) (s : S) :
    modify f (composeIso ab sa) s =
      modify (fun a => ab.reverseGet (f (ab.get a))) sa s := rfl

/-- Running `modify` through a composed lens acts on each target of the outer
traversal by transforming the focused field and re-injecting it. -/
theorem modify_composeLens {S A B : Type} (ab : Lens A B) (sa : Traversal S A)
    (f : B → B) (s : S) :
    modify f (composeLens ab sa) s =
      modify (fun a => ab.set (f (ab.get a)) a) sa s := rfl

/-- Running `modify` through a composed prism acts on each target of the
outer traversal by a total function: non-matching targets are mapped to
themselves, matching ones are transformed and re-embedded. -/
theorem modify_composePrism {S A B : Type} (ab : Prism A B) (sa : Traversal S A)
    (f : B → B) (s : S) :
    modify f (composePrism ab sa) s =
      modify (fun a =>
        match ab.getOption a with
        | Option.none => a
        | Option.some b => ab.reverseGet (f b)) sa s := rfl

/-- Running `modify` through a composed optional acts on each target of the
outer traversal by a total function: non-matching targets are mapped to
themselves, matching ones are updated in place. -/
theorem modify_composeOptional {S A B : Type} (ab : Optional A B) (sa : Traversal S A)
    (f : B → B) (s : S) :
    modify f (composeOptional ab sa) s =
      modify (fun a =>
        match ab.getOption a with
        | Option.none => a
        | Option.some b => ab.set (f b) a) sa s := rfl

/-- Running `modify` through two composed traversals modifies each outer
target with the inner traversal's `modify`. -/
theorem modify_composeTraversal {S A B : Type} (ab : Traversal A B) (sa : Traversal S A)
    (f : B → B) (s : S) :
    modify f (composeTraversal ab sa) s = modify (fun a => modify f ab a) sa s := rfl

/-- `modify` on a traversal obtained from a strategy is the strategy's
traverse under the identity effect. -/
theorem modify_fromTraversable {T : Type → Type} (TD : TraversableDict T) {A : Type}
    (f : A → A) (s : T A) :
    modify f (fromTraversable TD) s = TD.traverse (F := Id) f s := rfl

/-- Under the identity effect the list strategy is exactly `List.map`. -/
theorem listTraverse_id_map {A B : Type} (f : A → Id B) (s : List A) :
    listTraverse (F := Id) f s = s.map f := by
  induction s with
  | nil => rfl
  | cons a as ih =>
      show List.cons (f a) (listTraverse (F := Id) f as) = f a :: as.map f
      rw [ih]

/-- `modify` on the list traversal is `List.map`. -/
theorem modify_listT {A : Type} (f : A → A) (s : List A) :
    modify f listT s = s.map f :=
  listTraverse_id_map f s

/-- Identity law for every lawfully built traversal: modifying with the
identity function returns the structure unchanged. -/
theorem lawful_modify_id {S A : Type} {t : Traversal S A} (h : Lawful t) :
    ∀ s, modify (fun a => a) t s = s := by
  induction h with
  | fromTrav TD hid hfuse => exact hid
  | iso ab sa hra har hsa ih =>
      intro s
      calc modify (fun a => a) (composeIso ab sa) s
          = modify (fun a => ab.reverseGet (ab.get a)) sa s :=
            modify_composeIso ab sa (fun b => b) s
        _ = modify (fun a => a) sa s :=
            congrArg (fun g => modify g sa s) (funext fun a => hra a)
        _ = s := ih s
  | lens ab sa hgs hsg hss hsa ih =>
      intro s
      calc modify (fun a => a) (composeLens ab sa) s
          = modify (fun a => ab.set (ab.get a) a) sa s :=
            modify_composeLens ab sa (fun b => b) s
        _ = modify (fun a => a) sa s :=
            congrArg (fun g => modify g sa s) (funext fun a => hgs a)
        _ = s := ih s
  | prism ab sa hmatch hrg hsa ih =>
      intro s
      calc modify (fun a => a) (composePrism ab sa) s
          = modify (fun a =>
              match ab.getOption a with
              | Option.none => a
              | Option.some b => ab.reverseGet b) sa s :=
            modify_composePrism ab sa (fun b => b) s
        _ = modify (fun a => a) sa s := by
            refine congrArg (fun g => modify g sa s) (funext fun a => ?_)
            cases hm : ab.getOption a with
            | none => rfl
            | some b => exact hmatch a b hm
        _ = s := ih s
  | opt ab sa hgs hsg hss hsa ih =>
      intro s
      calc modify (fun a => a) (composeOptional ab sa) s
          = modify (fun a =>
              match ab.getOption a with
              | Option.none => a
              | Option.some b => ab.set b a) sa s :=
            modify_composeOptional ab sa (fun b => b) s
        _ = modify (fun a => a) sa s := by
            refine congrArg (fun g => modify g sa s) (funext fun a => ?_)
            cases hm : ab.getOption a with
            | none => rfl
            | some b => exact hgs a b hm
        _ = s := ih s
  | trav ab sa hab hsa ihab ihsa =>
      intro s
      calc modify (fun a => a) (composeTraversal ab sa) s
          = modify (fun a => modify (fun b => b) ab a) sa s :=
            modify_composeTraversal ab sa (fun b => b) s
        _ = modify (fun a => a) sa s :=
            congrArg (fun g => modify g sa s) (funext fun a => ihab a)
        _ = s := ihsa s

/-- Fusion law for every lawfully built traversal: two successive
modifications collapse into one modification with the composed function. -/
theorem lawful_modify_fuse {S A : Type} {t : Traversal S A} (h : Lawful t) :
    ∀ (f g : A → A) (s : S),
      modify g t (modify f t s) = modify (fun a => g (f a)) t s := by
  induction h with
  | fromTrav TD hid hfuse => exact hfuse
  | iso ab sa hra har hsa ih =>
      intro f g s
      calc modify g (composeIso ab sa) (modify f (composeIso ab sa) s)
          = modify (fun a => ab.reverseGet (g (ab.get a))) sa
              (modify (fun a => ab.reverseGet (f (ab.get a))) sa s) := by
            rw [modify_composeIso, modify_composeIso]
        _ = modify (fun a =>
              ab.reverseGet (g (ab.get (ab.reverseGet (f (ab.get a)))))) sa s := ih _ _ s
        _ = modify (fun a => ab.reverseGet (g (f (ab.get a)))) sa s :=
            congrArg (fun gg => modify gg sa s) (funext fun a => by rw [har])
        _ = modify (fun a => g (f a)) (composeIso ab sa) s :=
            (modify_composeIso ab sa (fun b => g (f b)) s).symm
  | lens ab sa hgs hsg hss hsa ih =>
      intro f g s
      calc modify g (composeLens ab sa) (modify f (composeLens ab sa) s)
          = modify (fun a => ab.set (g (ab.get a)) a) sa
              (modify (fun a => ab.set (f (ab.get a)) a) sa s) := by
            rw [modify_composeLens, modify_composeLens]
        _ = modify (fun a =>
              ab.set (g (ab.get (ab.set (f (ab.get a)) a))) (ab.set (f (ab.get a)) a)) sa s :=
            ih _ _ s
        _ = modify (fun a => ab.set (g (f (ab.get a))) a) sa s :=
            congrArg (fun gg => modify gg sa s) (funext fun a => by rw [hsg, hss])
        _ = modify (fun a => g (f a)) (composeLens ab sa) s :=
            (modify_composeLens ab sa (fun b => g (f b)) s).symm
  | prism ab sa hmatch hrg hsa ih =>
      intro f g s
      calc modify g (composePrism ab sa) (modify f (composePrism ab sa) s)
          = modify (fun a =>
              match ab.getOption a with
              | Option.none => a
              | Option.some b => ab.reverseGet (g b)) sa
              (modify (fun a =>
                match ab.getOption a with
                | Option.none => a
                | Option.some b => ab.reverseGet (f b)) sa s) := by
            rw [modify_composePrism, modify_composePrism]
        _ = modify (fun a =>
              match ab.getOption (match ab.getOption a with
                | Option.none => a
                | Option.some b => ab.reverseGet (f b)) with
              | Option.none =>
                  match ab.getOption a with
                  | Option.none => a
                  | Option.some b => ab.reverseGet (f b)
              | Option.some b => ab.reverseGet (g b)) sa s := ih _ _ s
        _ = modify (fun a =>
              match ab.getOption a with
              | Option.none => a
              | Option.some b => ab.reverseGet (g (f b))) sa s := by
            refine congrArg (fun gg => modify gg sa s) (funext fun a => ?_)
            cases hm : ab.getOption a with
            | none => simp [hm]
            | some b => simp [hm, hrg]
        _ = modify (fun a => g (f a)) (composePrism ab sa) s :=
            (modify_composePrism ab sa (fun b => g (f b)) s).symm
  | opt ab sa hgs hsg hss hsa ih =>
      intro f g s
      calc modify g (composeOptional ab sa) (modify f (composeOptional ab sa) s)
          = modify (fun a =>
              match ab.getOption a with
              | Option.none => a
              | Option.some b => ab.set (g b) a) sa
              (modify (fun a =>
                match ab.getOption a with
                | Option.none => a
                | Option.some b => ab.set (f b) a) sa s) := by
            rw [modify_composeOptional, modify_composeOptional]
        _ = modify (fun a =>
              match ab.getOption (match ab.getOption a with
                | Option.none => a
                | Option.some b => ab.set (f b) a) with
              | Option.none =>
                  match ab.getOption a with
                  | Option.none => a
                  | Option.some b => ab.set (f b) a
              | Option.some b => ab.set (g b)
                  (match ab.getOption a with
                  | Option.none => a
                  | Option.some b2 => ab.set (f b2) a)) sa s := ih _ _ s
        _ = modify (fun a =>
              match ab.getOption a with
              | Option.none => a
              | Option.some b => ab.set (g (f b)) a) sa s := by
            refine congrArg (fun gg => modify gg sa s) (funext fun a => ?_)
            cases hm : ab.getOption a with
            | none => simp [hm]
            | some b => simp [hm, hsg a b hm, hss a b hm]
        _ = modify (fun a => g (f a)) (composeOptional ab sa) s :=
            (modify_composeOptional ab sa (fun b => g (f b)) s).symm
  | trav ab sa hab hsa ihab ihsa =>
      intro f g s
      calc modify g (composeTraversal ab sa) (modify f (composeTraversal ab sa) s)
          = modify (fun a => modify g ab a) sa (modify (fun a => modify f ab a) sa s) := by
            rw [modify_composeTraversal, modify_composeTraversal]
        _ = modify (fun a => modify g ab (modify f ab a)) sa s := ihsa _ _ s
        _ = modify (fun a => modify (fun b => g (f b)) ab a) sa s :=
            congrArg (fun gg => modify gg sa s) (funext fun a => ihab f g a)
        _ = modify (fun a => g (f a)) (composeTraversal ab sa) s :=
            (modify_composeTraversal ab sa (fun b => g (f b)) s).symm

/-- The list traversal is lawfully built: the list strategy satisfies the
identity and fusion laws at the identity effect. -/
theorem listT_lawful {A : Type} : Lawful (listT (A := A)) := by
  refine Lawful.fromTrav listDict (fun s => ?_) (fun f g s => ?_)
  · exact (listTraverse_id_map (fun a => a) s).trans (List.map_id' s)
  · calc listTraverse (F := Id) g (listTraverse (F := Id) f s)
        = (s.map f).map g := by rw [listTraverse_id_map f s, listTraverse_id_map g (s.map f)]
      _ = s.map (fun a => g (f a)) := by rw [List.map_map]; rfl
      _ = listTraverse (F := Id) (fun a => g (f a)) s := (listTraverse_id_map _ s).symm

/-- Claim C1: for every Traversal `t` built from law-abiding collaborators
and every structure `s`, `modify (fun x => x) t s` returns a structure equal
to the original `s` (identity law). -/
theorem C1_identity_law {S A : Type} (t : Traversal S A) (h : Lawful t) (s : S) :
    modify (fun x => x) t s = s :=
  lawful_modify_id h s

/-- Witness for C1 at the list traversal and the structure `[1, 2, 3]`. -/
theorem C1_identity_law_witness :
    modify (fun x => x) (listT (A := Nat)) [1, 2, 3] = [1, 2, 3] :=
  C1_identity_law (listT (A := Nat)) listT_lawful [1, 2, 3]

/-- Claim C2: `modify f (filter p t)` changes exactly the targets of `t`
satisfying `p` (it equals modifying every target of `t` with the function
that applies `f` only where `p` holds and is the identity elsewhere, so
non-matching targets and non-targeted parts are untouched); concretely, over
`[1, 2, 3, 4]` with the evenness predicate, `set 0` yields `[1, 0, 3, 0]`. -/
theorem C2_filter_exclusion :
    (∀ (S A : Type) (t : Traversal S A) (p : A → Bool) (f : A → A) (s : S),
        modify f (filter p t) s = modify (fun a => if p a then f a else a) t s) ∧
    set 0 (filter (fun n => n % 2 == 0) (listT (A := Nat))) [1, 2, 3, 4] = [1, 0, 3, 0] := by
  constructor
  · intro S A t p f s
    calc modify f (filter p t) s
        = modify (fun a =>
            match (prismFromPredicate p).getOption a with
            | Option.none => a
            | Option.some b => (prismFromPredicate p).reverseGet (f b)) t s :=
          modify_composePrism (prismFromPredicate p) t f s
      _ = modify (fun a => if p a then f a else a) t s := by
          refine congrArg (fun g => modify g t s) (funext fun a => ?_)
          cases hp : p a with
          | true => simp [prismFromPredicate, hp]
          | false => simp [prismFromPredicate, hp]
  · rfl

/-- Claim C3: composing a traversal with a Prism or an Optional modifies each
outer target through a total function — a non-matching target is mapped to
itself (a silent no-op for that target only) while every other target is
still visited; concretely, over `[inl 1, inr true, inl 3]` with the
left-component prism, `modify (n + 1)` leaves the non-matching middle target
untouched and transforms both others. -/
theorem C3_silent_skip :
    (∀ (S A B : Type) (t : Traversal S A) (pr : Prism A B) (f : B → B) (s : S),
        modify f (composePrism pr t) s =
          modify (fun a =>
            match pr.getOption a with
            | Option.none => a
            | Option.some b => pr.reverseGet (f b)) t s) ∧
    (∀ (S A B : Type) (t : Traversal S A) (op : Optional A B) (f : B → B) (s : S),
        modify f (composeOptional op t) s =
          modify (fun a =>
            match op.getOption a with
            | Option.none => a
            | Option.some b => op.set (f b) a) t s) ∧
    modify (fun n => n + 1) (composePrism sumPrism listT)
        [Sum.inl 1, Sum.inr true, Sum.inl 3] =
      [Sum.inl 2, Sum.inr true, Sum.inl 4] :=
  ⟨fun _ _ _ t pr f s => modify_composePrism pr t f s,
   fun _ _ _ t op f s => modify_composeOptional op t f s,
   by rfl⟩

/-- Claim C4: `modify f t` is the primitive `modifyF` instantiated with the
identity applicative and `f` as the per-target function; on the list
traversal it replaces every target by `f` of its value and leaves the rest
of the structure unchanged (it is exactly `List.map f`). -/
theorem C4_modify_primitive :
    (∀ (S A : Type) (t : Traversal S A) (f : A → A) (s : S),
        modify f t s = t.modifyF (F := Id) f s) ∧
    (∀ (A : Type) (f : A → A) (s : List A),
        modify f (listT (A := A)) s = s.map f) :=
  ⟨fun _ _ _ _ _ => rfl, fun _ f s => modify_listT f s⟩

/-- Claim C5: `set a t` equals `modify` with the constant function returning
`a`, and for every lawfully built traversal applying it twice equals applying
it once. -/
theorem C5_set_const_idem {S A : Type} (t : Traversal S A) (h : Lawful t) (a : A) (s : S) :
    set a t s = modify (fun _ => a) t s ∧ set a t (set a t s) = set a t s :=
  ⟨rfl, lawful_modify_fuse h (fun _ => a) (fun _ => a) s⟩

/-- Witness for C5 at the list traversal, the value `7` and the structure
`[1, 2]`. -/
theorem C5_set_const_idem_witness :
    (set 7 (listT (A := Nat)) [1, 2] = modify (fun _ => 7) (listT (A := Nat)) [1, 2]) ∧
      set 7 (listT (A := Nat)) (set 7 (listT (A := Nat)) [1, 2]) =
        set 7 (listT (A := Nat)) [1, 2] :=
  C5_set_const_idem (listT (A := Nat)) listT_lawful 7 [1, 2]

/-- Claim C6: setting through `prop("x")` acts on every target record by
replacing its field `x` with `v` and keeping the other field; on the list
traversal the result is the element-wise field update, so reading `x` off
every target yields `v` and the other field is unchanged — concretely
`[⟨1, "a"⟩, ⟨2, "b"⟩]` becomes `[⟨0, "a"⟩, ⟨0, "b"⟩]`. -/
theorem C6_prop_roundtrip :
    (∀ (S α β : Type) (t : Traversal S (Rec α β)) (v : α) (s : S),
        set v (propX t) s = modify (fun r => Rec.mk v r.y) t s) ∧
    (∀ (α β : Type) (v : α) (s : List (Rec α β)),
        set v (propX (listT (A := Rec α β))) s = s.map (fun r => Rec.mk v r.y)) ∧
    set 0 (propX (listT (A := Rec Nat String))) [Rec.mk 1 "a", Rec.mk 2 "b"] =
      [Rec.mk 0 "a", Rec.mk 0 "b"] := by
  refine ⟨fun S α β t v s => rfl, fun α β v s => ?_, by rfl⟩
  calc set v (propX (listT (A := Rec α β))) s
      = modify (fun r => Rec.mk v r.y) (listT (A := Rec α β)) s := rfl
    _ = s.map (fun r => Rec.mk v r.y) := modify_listT _ s

/-- Claim C7: `some` visits exactly the present targets — modifying through
it equals modifying every `Option`-valued target with `Option.map f`, which
transforms a present value and leaves an absent target unchanged;
concretely, over `[some 1, none, some 3]`, `modify (n + 1)` yields
`[some 2, none, some 4]`. -/
theorem C7_some_visits_present :
    (∀ (S A : Type) (t : Traversal S (Option A)) (f : A → A) (s : S),
        modify f (Monocle.some t) s = modify (fun oa => Option.map f oa) t s) ∧
    modify (fun n => n + 1) (Monocle.some (listT (A := Option Nat)))
        [Option.some 1, Option.none, Option.some 3] =
      [Option.some 2, Option.none, Option.some 4] := by
  constructor
  · intro S A t f s
    calc modify f (Monocle.some t) s
        = modify (fun oa =>
            match (prismFromSome (A := A)).getOption oa with
            | Option.none => oa
            | Option.some b => (prismFromSome (A := A)).reverseGet (f b)) t s :=
          modify_composePrism prismFromSome t f s
      _ = modify (fun oa => Option.map f oa) t s := by
          refine congrArg (fun g => modify g t s) (funext fun oa => ?_)
          cases oa with
          | none => rfl
          | some b => rfl
  · rfl

/-- Claim C8: on the traversal built by `fromTraversable` over the list
strategy, `modify (n * 10)` sends `[1, 2, 3]` to `[10, 20, 30]`, and the
container shape is preserved: modifying never changes the length. -/
theorem C8_list_scenario :
    modify (fun n => n * 10) (listT (A := Nat)) [1, 2, 3] = [10, 20, 30] ∧
    (∀ (A : Type) (f : A → A) (s : List A),
        (modify f (listT (A := A)) s).length = s.length) :=
  ⟨by rfl, fun _ f s => by rw [modify_listT]; exact List.length_map s f⟩

/-- Claim C9: `fromTraversable` is a direct adaptation with no additional
logic — for every strategy, applicative, per-element function and container,
its primitive `modifyF` is exactly the strategy's traverse. -/
theorem C9_fromTraversable_direct {T : Type → Type} (TD : TraversableDict T) {A : Type}
    {F : Type → Type} [inst : Applicative F] (f : A → F A) (s : T A) :
    (fromTraversable TD (A := A)).modifyF f s = TD.traverse f s := rfl

/-- Claim C10: for every lawfully built traversal, modification fuses with
composition — modifying with `g` after modifying with `f` equals one
modification with the composite. -/
theorem C10_modify_fusion {S A : Type} (t : Traversal S A) (h : Lawful t) (f g : A → A) (s : S) :
    modify g t (modify f t s) = modify (fun x => g (f x)) t s :=
  lawful_modify_fuse h f g s

/-- Witness for C10 at the list traversal with doubling then incrementing on
`[1, 2, 3]`. -/
theorem C10_modify_fusion_witness :
    modify (fun n => n + 1) (listT (A := Nat))
        (modify (fun n => n * 2) (listT (A := Nat)) [1, 2, 3]) =
      modify (fun n => n * 2 + 1) (listT (A := Nat)) [1, 2, 3] :=
  C10_modify_fusion (listT (A := Nat)) listT_lawful (fun n => n * 2) (fun n => n + 1) [1, 2, 3]

end Monocle
